import Mathlib

/-!
Shallow embedding of the suiswap/aptoswap swap-sdk numerical core
(src/internal/utils.ts and src/internal/common.ts).

Conventions of the embedding:
* TypeScript `bigint` is modelled as `ℤ`.  The `/` operator on `bigint`
  truncates towards zero, which is `Int.tdiv`; we write `tdiv` for it.
  Division by zero throws a `RangeError` in TypeScript; every division whose
  divisor is not a manifestly non-zero constant is modelled with `tdivOpt`,
  which returns `none` exactly when the source would throw.
* TypeScript `number` only enters the settlement-path arithmetic through the
  slippage parameter; it is modelled as `ℚ` with exact arithmetic, and
  `Math.round` (round half towards +∞) is modelled on the exact rational.
* The bounded `for` loops (256 Newton iterations with an early `break`) are
  modelled by structural recursion on a fuel argument equal to the remaining
  number of iterations.
-/

namespace SwapSdk

set_option maxRecDepth 100000

/-- TypeScript `bigint` division: truncation towards zero. -/
def tdiv (a b : ℤ) : ℤ := a.tdiv b

/-- TypeScript `bigint` division with the `RangeError` on a zero divisor
modelled as `none`. -/
def tdivOpt (a b : ℤ) : Option ℤ :=
  if b = 0 then none else some (tdiv a b)

/-- `utils.ts` `bigintPow`: `Array(b).fill(a).reduce((a, b) => a * b, 1n)`,
i.e. `a ^ b` for a natural exponent (every call site passes `b ≥ 0`). -/
def bigintPow (a : ℤ) (b : ℕ) : ℤ := a ^ b

namespace StableSwapHelper

/-- `StableSwapHelper.compuateDNext` (name kept from the source, typo
included): one Newton step for the invariant `D`. -/
def compuateDNext (dInit dProd sumX A : ℤ) : Option ℤ :=
  let leverage := sumX * 2 * A
  let numerator := dInit * (2 * dProd + leverage)
  let denominator := dInit * (2 * A - 1) + 3 * dProd
  tdivOpt numerator denominator

/-- The body of the `for` loop of `StableSwapHelper.computeD`, with `fuel`
remaining iterations; on fuel exhaustion the current `d` is returned, matching
the source, which returns the last computed `d` after 256 iterations. -/
def computeDLoop (b q A : ℤ) : ℕ → ℤ → Option ℤ
  | 0, d => some d
  | fuel + 1, d => do
    let dProd1 ← tdivOpt (d * d) (2 * b)
    let dProd ← tdivOpt (dProd1 * d) (2 * q)
    let dNext ← compuateDNext d dProd (b + q) A
    let diff := dNext - d
    if diff = 1 ∨ diff = -1 ∨ diff = 0 then some dNext
    else computeDLoop b q A fuel dNext

/-- `StableSwapHelper.computeD`: Newton iteration for the stable-swap
invariant `D`, up to 256 iterations, starting from `d = b + q`. -/
def computeD (b q A : ℤ) : Option ℤ :=
  if b + q = 0 then some 0
  else computeDLoop b q A 256 (b + q)

/-- The body of the `for` loop of `StableSwapHelper.computeY`, with `fuel`
remaining iterations (the constants `c`, `b`, `d` are fixed through the
loop). -/
def computeYLoop (c b d : ℤ) : ℕ → ℤ → Option ℤ
  | 0, yy => some yy
  | fuel + 1, yy => do
    let yn := yy * yy + c
    let yd := 2 * yy + b - d
    let yNext ← tdivOpt yn yd
    let diff := yNext - yy
    if diff = 1 ∨ diff = -1 ∨ diff = 0 then some yNext
    else computeYLoop c b d fuel yNext

/-- `StableSwapHelper.computeY`: solves for the counterparty reserve after
adding `dx` to `x`, preserving the pre-trade invariant, and returns
`y - y_final - 1`. -/
def computeY (dx x y A : ℤ) : Option ℤ := do
  let d ← computeD x y A
  let c1 ← tdivOpt (d * d) (2 * (x + dx))
  let c ← tdivOpt (c1 * d) (4 * A)
  let bq ← tdivOpt d (2 * A)
  let b := bq + (x + dx)
  let yy ← computeYLoop c b d 256 d
  some (y - yy - 1)

/-- `StableSwapHelper.computeDDecimal`.  The source normalizes both balances
to the larger decimal precision and calls `computeD`, but its body has no
`return` statement: the computed invariant is discarded and the TypeScript
function returns `undefined`.  The result type `Option Unit` records exactly
that: `some ()` is normal completion carrying no value (`undefined`), `none`
is a thrown error propagated from `computeD`. -/
def computeDDecimal (b q A : ℤ) (bd qd : ℕ) : Option Unit := do
  let md := max bd qd
  let _ ← computeD (b * bigintPow 10 (md - bd)) (q * bigintPow 10 (md - qd)) A
  pure ()

/-- `StableSwapHelper.computeYDecimal`: normalizes the amounts to the larger
decimal precision, calls `computeY`, and divides the result back down by the
output side's scale factor. -/
def computeYDecimal (dx x y A : ℤ) (xd yd : ℕ) : Option ℤ := do
  let md := max xd yd
  let xs := bigintPow 10 (md - xd)
  let ys := bigintPow 10 (md - yd)
  let dy ← computeY (dx * xs) (x * xs) (y * ys) A
  tdivOpt dy ys

end StableSwapHelper

/-- `common.ts` `SwapType`: `"v2" | "stable"`. -/
inductive SwapType
  | v2
  | stable
deriving DecidableEq

/-- `common.ts` `FeeDirection`: `"X" | "Y"`. -/
inductive FeeDirection
  | X
  | Y
deriving DecidableEq

/-- The fields of `common.ts` `PoolInfo` that enter the numerical engine
(identification fields, trade counters and the moving average, which only
feed display metrics, are omitted). -/
structure PoolInfo where
  x : ℤ
  y : ℤ
  lspSupply : ℤ
  swapType : SwapType
  feeDirection : FeeDirection
  stableAmp : ℤ
  stableXScale : ℤ
  stableYScale : ℤ
  freeze : Bool
  adminFee : ℤ
  lpFee : ℤ
  incentiveFee : ℤ
  connectFee : ℤ
  withdrawFee : ℤ
deriving DecidableEq

namespace PoolInfo

/-- `PoolInfo.BPS_SCALING = 10000n`. -/
def BPS_SCALING : ℤ := 10000

/-- `PoolInfo.totalAdminFee`. -/
def totalAdminFee (p : PoolInfo) : ℤ := p.adminFee + p.connectFee

/-- `PoolInfo.totalLpFee`. -/
def totalLpFee (p : PoolInfo) : ℤ := p.incentiveFee + p.lpFee

/-- `PoolInfo.isInitialized`. -/
def isInitialized (p : PoolInfo) : Bool := 0 < p.x ∧ 0 < p.y

/-- `PoolInfo._computeAmount`: the constant-product quote
`dy = y * dx / (x + dx)`. -/
def _computeAmount (dx x y : ℤ) : Option ℤ :=
  let numerator := y * dx
  let denominator := x + dx
  tdivOpt numerator denominator

/-- `PoolInfo._computeAmountStable`: scale the amounts, call `computeY`,
scale the result back down. -/
def _computeAmountStable (p : PoolInfo) (dx x y xScale yScale : ℤ) : Option ℤ := do
  let dy ← StableSwapHelper.computeY (dx * xScale) (x * xScale) (y * yScale) p.stableAmp
  tdivOpt dy yScale

/-- `PoolInfo.getXToYAmount`: the forward swap quote. -/
def getXToYAmount (p : PoolInfo) (dx : ℤ) : Option ℤ :=
  let dx1 := if p.feeDirection = FeeDirection.X
    then dx - tdiv (dx * p.totalAdminFee) BPS_SCALING else dx
  let dx2 := dx1 - tdiv (dx1 * p.totalLpFee) BPS_SCALING
  if dx2 < 0 then some 0
  else do
    let dy ← if p.swapType = SwapType.v2
      then _computeAmount dx2 p.x p.y
      else p._computeAmountStable dx2 p.x p.y p.stableXScale p.stableYScale
    some (if p.feeDirection = FeeDirection.Y
      then dy - tdiv (dy * p.totalAdminFee) BPS_SCALING else dy)

/-- `PoolInfo.getYToXAmount`: the reverse swap quote. -/
def getYToXAmount (p : PoolInfo) (dy : ℤ) : Option ℤ :=
  let dy1 := if p.feeDirection = FeeDirection.Y
    then dy - tdiv (dy * p.totalAdminFee) BPS_SCALING else dy
  let dy2 := dy1 - tdiv (dy1 * p.totalLpFee) BPS_SCALING
  if dy2 < 0 then some 0
  else do
    let dx ← if p.swapType = SwapType.v2
      then _computeAmount dy2 p.y p.x
      else p._computeAmountStable dy2 p.y p.x p.stableYScale p.stableXScale
    some (if p.feeDirection = FeeDirection.X
      then dx - tdiv (dx * p.totalAdminFee) BPS_SCALING else dx)

/-- The factor `BigInt(Math.round((10 ** 9) * (1.0 - slippage)))` of
`getXToYMinOutputAmount`.  The `number` arithmetic is modelled exactly over
`ℚ`: `(1 - s) * 10^9 = ((s.den - s.num) * 10^9) / s.den`, and `Math.round`
(round to nearest, half towards `+∞`, i.e. `⌊x + 1/2⌋`) of `a / b` with
`b > 0` is `⌊(2a + b) / (2b)⌋`, a flooring integer division. -/
def slippageRoundFactor (s : ℚ) : ℤ :=
  Int.fdiv (2 * (((s.den : ℤ) - s.num) * 10 ^ 9) + s.den) (2 * s.den)

/-- `PoolInfo.getXToYMinOutputAmount`. -/
def getXToYMinOutputAmount (p : PoolInfo) (dx : ℤ) (slippage : ℚ) : Option ℤ := do
  let dy ← getXToYAmount p dx
  some (tdiv (dy * slippageRoundFactor slippage) (10 ^ 9))

/-- `PoolInfo.getYToXMinOutputAmount`. -/
def getYToXMinOutputAmount (p : PoolInfo) (dy : ℤ) (slippage : ℚ) : Option ℤ := do
  let dx ← getYToXAmount p dy
  some (tdiv (dx * slippageRoundFactor slippage) (10 ^ 9))

/-- `PoolInfo.getDepositXAmount`: `x * y / this.y`, guarded against an empty
`y` reserve. -/
def getDepositXAmount (p : PoolInfo) (y : ℤ) : ℤ :=
  if p.y = 0 then 0 else tdiv (p.x * y) p.y

/-- `PoolInfo.getDepositYAmount`: `x * this.y / this.x`, guarded against an
empty `x` reserve. -/
def getDepositYAmount (p : PoolInfo) (x : ℤ) : ℤ :=
  if p.x = 0 then 0 else tdiv (x * p.y) p.x

/-- `PoolInfo.getDepositAmount`. -/
def getDepositAmount (p : PoolInfo) (xMax yMax : ℤ) : ℤ × ℤ :=
  if ¬ p.isInitialized ∨ xMax ≤ 0 ∨ yMax ≤ 0 then (0, 0)
  else if p.getDepositXAmount yMax > xMax then
    let x := xMax
    let y := p.getDepositYAmount xMax
    (x, if y < yMax then y else yMax)
  else
    let y := yMax
    let x := p.getDepositXAmount yMax
    (if x < xMax then x else xMax, y)

end PoolInfo

/-! ### Strings and the `DemicalFormat` fixed-point decimal type

TypeScript strings are modelled as `List Char`. -/

/-- The character class `[0-9]` of the validation regex. -/
def isDigitCh (c : Char) : Bool := '0' ≤ c && c ≤ '9'

/-- The part of the regex `^[0-9]+(\.[0-9]*)?$` after its first digit:
further digits, then optionally a dot followed by digits only. -/
def numericTail : List Char → Bool
  | [] => true
  | c :: r => if c = '.' then r.all isDigitCh else isDigitCh c && numericTail r

/-- `s.match(/(^[0-9]+$)|(^[0-9]+\.[0-9]*$)/) !== null`: one or more digits,
optionally followed by a dot and zero or more digits. -/
def matchesNumeric : List Char → Bool
  | [] => false
  | c :: r => isDigitCh c && numericTail r

/-- `s.length >= 2 && s[0] === '0' && s[1] === '0'`: the rejected redundant
leading-zero shape. -/
def hasTwoLeadingZeros : List Char → Bool
  | a :: b :: _ => decide (a = '0') && decide (b = '0')
  | _ => false

/-- `String.prototype.indexOf` restricted to a single character: the index of
the first occurrence, or `-1`. -/
def indexOfChar (c : Char) : List Char → ℤ
  | [] => -1
  | a :: r =>
    if a = c then 0
    else
      let i := indexOfChar c r
      if i = -1 then -1 else i + 1

/-- Modelled from the spec: `formatNumeric` is imported by `common.ts` from
`./format`, a module that is not part of this repository's sources.  Per the
spec's description of `format`/`parse` (section 4.3: the integer part is
zero-padded "as needed", a single leading `0.` is allowed while redundant
leading zeros are rejected, and the scale is the count of digits after the
dot), it normalizes a numeric string by stripping redundant leading zeros of
the integer part, leaving a single `0` before a decimal point or a lone `0`
intact. -/
def formatNumeric : List Char → List Char
  | a :: b :: r => if a = '0' ∧ b ≠ '.' then formatNumeric (b :: r) else a :: b :: r
  | l => l

/-- Little-endian decimal digits of `n`, with explicit fuel (`n` itself
suffices) so that the definition is structural and kernel-reducible. -/
def natDigitsAux : ℕ → ℕ → List ℕ
  | 0, _ => []
  | _ + 1, 0 => []
  | fuel + 1, n + 1 => ((n + 1) % 10) :: natDigitsAux fuel ((n + 1) / 10)

/-- `BigInt.prototype.toString` for a non-negative value: most-significant
digit first, `"0"` for zero. -/
def natToChars (n : ℕ) : List Char :=
  if n = 0 then ['0'] else ((natDigitsAux n n).reverse.map Nat.digitChar)

/-- `BigInt.prototype.toString`. -/
def intToChars (v : ℤ) : List Char :=
  if v < 0 then '-' :: natToChars (-v).toNat else natToChars v.toNat

/-- `BigInt(s)` for a string of decimal digits. -/
def charsToNat (l : List Char) : ℕ :=
  l.foldl (fun a c => 10 * a + (c.toNat - 48)) 0

/-- `common.ts` `DemicalFormat` (name kept from the source): an exact decimal
`value / 10 ^ demical`. -/
structure DemicalFormat where
  value : ℤ
  demical : ℤ
deriving DecidableEq

namespace DemicalFormat

/-- The `DemicalFormat` constructor: `this.demical = (demical < 0) ? 0 :
demical` silently coerces a negative scale to `0`; it never throws. -/
def new (value : ℤ) (demical : ℤ) : DemicalFormat :=
  ⟨value, if demical < 0 then 0 else demical⟩

/-- `DemicalFormat.toString(fixed)`: prepend `demical` zeros, insert the
decimal point `demical` digits from the right, normalize with
`formatNumeric`, and, when `fixed` is set, pad the fractional part with
trailing zeros out to exactly `demical` digits. -/
def toString (f : DemicalFormat) (fixed : Bool) : List Char :=
  if f.demical ≤ 0 then formatNumeric (intToChars f.value)
  else
    let d := f.demical.toNat
    let vs0 := List.replicate d '0' ++ intToChars f.value
    let vs1 := vs0.take (vs0.length - d) ++ '.' :: vs0.drop (vs0.length - d)
    let vs := formatNumeric vs1
    if fixed ∧ 0 < f.demical then
      let vs2 := if indexOfChar '.' vs = -1 then vs ++ ['.'] else vs
      let currentDemical : ℤ := (vs2.length : ℤ) - 1 - indexOfChar '.' vs2
      let appendDemical : ℤ := f.demical - currentDemical
      let appendDemical2 : ℤ := if appendDemical < 0 then 0 else appendDemical
      vs2 ++ List.replicate appendDemical2.toNat '0'
    else vs

/-- `DemicalFormat.fromString`: reject anything that does not match
`^[0-9]+(\.[0-9]*)?$` or that starts with two zeros, normalize with
`formatNumeric`, read the scale off the dot position (`0` when there is no
dot), and parse the digits with the dot removed. -/
def fromString (s : List Char) : Option DemicalFormat :=
  if ¬ matchesNumeric s then none
  else if hasTwoLeadingZeros s then none
  else
    let t := formatNumeric s
    let dm0 : ℤ := (t.length : ℤ) - 1 - indexOfChar '.' t
    let dm : ℤ := if (t.length : ℤ) ≤ dm0 then 0 else dm0
    let digitsOnly := t.filter (fun c => c ≠ '.')
    some (new (charsToNat digitsOnly : ℤ) dm)

end DemicalFormat

/-! ### Specification-side definitions

These definitions follow the wording of the specification / claims, to be
compared with the definitions above, which are translated from the source. -/

/-- The constant-product forward-swap pipeline as the claim words it: deduct
the total admin fee from `dx` when the fee is charged on `X`, then deduct the
total LP fee, clamp a negative post-fee input to `0`, quote
`reserveY * dxAfterFee / (reserveX + dxAfterFee)` with truncation, and deduct
the total admin fee from the output when the fee is charged on `Y`. -/
def specConstantProductQuote (p : PoolInfo) (dx : ℤ) : Option ℤ :=
  let dxAdmin := if p.feeDirection = FeeDirection.X
    then dx - tdiv (dx * p.totalAdminFee) 10000 else dx
  let dxLp := dxAdmin - tdiv (dxAdmin * p.totalLpFee) 10000
  let dxAfterFee := max dxLp 0
  (tdivOpt (p.y * dxAfterFee) (p.x + dxAfterFee)).map fun dy =>
    if p.feeDirection = FeeDirection.Y
      then dy - tdiv (dy * p.totalAdminFee) 10000 else dy

/-- `quoteMinOutputWithSlippage` as the claim words it: the factor is
`floor((1 - slippage) * 1e9)`, obtained by rounding down, and the final
division by `1e9` truncates. -/
def specMinOutputFloor (p : PoolInfo) (dx : ℤ) (slippage : ℚ) : Option ℤ := do
  let dy ← p.getXToYAmount dx
  some (tdiv (dy * ⌊(1 - slippage) * 10 ^ 9⌋) (10 ^ 9))

/-- `quoteMinOutputWithSlippage` as amended: the factor is
`(1 - slippage) * 1e9` rounded to the nearest integer, half towards `+∞`
(JavaScript `Math.round`), and the final division by `1e9` truncates. -/
def specMinOutputRound (p : PoolInfo) (dx : ℤ) (slippage : ℚ) : Option ℤ := do
  let dy ← p.getXToYAmount dx
  some (tdiv (dy * ⌊(1 - slippage) * 10 ^ 9 + 1 / 2⌋) (10 ^ 9))

/-- `quoteDeposit` as the claim words it: `(0, 0)` when the pool is
uninitialized (a reserve is zero) or either max is non-positive; otherwise
the binding-constraint side is taken in full and the other side is its
truncated proportional counterpart, clamped to its max. -/
def specDepositAmount (p : PoolInfo) (xMax yMax : ℤ) : ℤ × ℤ :=
  if ¬ (0 < p.x ∧ 0 < p.y) ∨ xMax ≤ 0 ∨ yMax ≤ 0 then (0, 0)
  else if xMax < tdiv (p.x * yMax) p.y then
    (xMax, min (tdiv (xMax * p.y) p.x) yMax)
  else
    (min (tdiv (p.x * yMax) p.y) xMax, yMax)

/-! ### Concrete pools used by the scenario parts of the claims -/

/-- The spec's fee-deduction scenario pool: constant product,
`reserveX = reserveY = 1_000_000`, `totalLpFeeBps = 30`,
`totalAdminFeeBps = 0`, fee charged on `X`. -/
def feeScenarioPool : PoolInfo :=
  { x := 1000000, y := 1000000, lspSupply := 1000000,
    swapType := SwapType.v2, feeDirection := FeeDirection.X,
    stableAmp := 1, stableXScale := 1, stableYScale := 1, freeze := false,
    adminFee := 0, lpFee := 30, incentiveFee := 0, connectFee := 0, withdrawFee := 0 }

/-- A valid StableSwap pool (positive reserves, zero fees, `A = 2`,
unit scales). -/
def stableRoundTripPool : PoolInfo :=
  { x := 23, y := 8, lspSupply := 13,
    swapType := SwapType.stable, feeDirection := FeeDirection.X,
    stableAmp := 2, stableXScale := 1, stableYScale := 1, freeze := false,
    adminFee := 0, lpFee := 0, incentiveFee := 0, connectFee := 0, withdrawFee := 0 }

/-- A fee-free constant-product pool whose quote for input `1` is the large
round number `2*10^9`, used to exhibit the slippage-factor rounding. -/
def slippagePool : PoolInfo :=
  { x := 1, y := 4000000000, lspSupply := 63245,
    swapType := SwapType.v2, feeDirection := FeeDirection.X,
    stableAmp := 1, stableXScale := 1, stableYScale := 1, freeze := false,
    adminFee := 0, lpFee := 0, incentiveFee := 0, connectFee := 0, withdrawFee := 0 }

/-- An initialized pool for the deposit-quote witness. -/
def depositPool : PoolInfo :=
  { x := 100, y := 350, lspSupply := 187,
    swapType := SwapType.v2, feeDirection := FeeDirection.X,
    stableAmp := 1, stableXScale := 1, stableYScale := 1, freeze := false,
    adminFee := 0, lpFee := 0, incentiveFee := 0, connectFee := 0, withdrawFee := 0 }

/-- An uninitialized pool (empty `x` reserve). -/
def uninitializedPool : PoolInfo :=
  { x := 0, y := 5, lspSupply := 0,
    swapType := SwapType.v2, feeDirection := FeeDirection.X,
    stableAmp := 1, stableXScale := 1, stableYScale := 1, freeze := false,
    adminFee := 0, lpFee := 0, incentiveFee := 0, connectFee := 0, withdrawFee := 0 }

/-- A constant-product pool with all four fee components non-zero and the
admin fee charged on the output leg. -/
def feeOnYPool : PoolInfo :=
  { x := 1000, y := 2000, lspSupply := 1414,
    swapType := SwapType.v2, feeDirection := FeeDirection.Y,
    stableAmp := 1, stableXScale := 1, stableYScale := 1, freeze := false,
    adminFee := 5, lpFee := 30, incentiveFee := 3, connectFee := 20, withdrawFee := 0 }

/-! ### Helper lemmas on truncating / Euclidean division -/

theorem tdiv_eq_of_nonneg {a b : ℤ} (ha : 0 ≤ a) (hb : 0 ≤ b) : tdiv a b = a / b :=
  Int.tdiv_eq_ediv ha hb

theorem tdivOpt_eq_some {a b : ℤ} (hb : b ≠ 0) : tdivOpt a b = some (tdiv a b) := by
  simp [tdivOpt, hb]

/-- A basis-point fee deduction `a - a * f / 10000` never exceeds `a`. -/
theorem feeCut_le {a f : ℤ} (ha : 0 ≤ a) (hf : 0 ≤ f) :
    a - tdiv (a * f) 10000 ≤ a := by
  rw [tdiv_eq_of_nonneg (mul_nonneg ha hf) (by norm_num)]
  have h := Int.ediv_nonneg (mul_nonneg ha hf) (by norm_num : (0:ℤ) ≤ 10000)
  omega

/-- A basis-point fee deduction with a rate of at most 10000 bps leaves a
non-negative amount. -/
theorem feeCut_nonneg {a f : ℤ} (ha : 0 ≤ a) (hf : 0 ≤ f) (hf2 : f ≤ 10000) :
    0 ≤ a - tdiv (a * f) 10000 := by
  rw [tdiv_eq_of_nonneg (mul_nonneg ha hf) (by norm_num)]
  have h1 : a * f / 10000 ≤ a * 10000 / 10000 :=
    Int.ediv_le_ediv (by norm_num) (by nlinarith)
  rw [Int.mul_ediv_cancel _ (by norm_num)] at h1
  omega

/-- Monotonicity of `n / d` across different denominators, via
cross-multiplication. -/
theorem ediv_le_ediv_cross {n1 d1 n2 d2 : ℤ} (hd1 : 0 < d1) (hd2 : 0 < d2)
    (_hn1 : 0 ≤ n1) (h : n1 * d2 ≤ n2 * d1) : n1 / d1 ≤ n2 / d2 := by
  rw [Int.le_ediv_iff_mul_le hd2]
  have h0 : n1 / d1 * d1 ≤ n1 := Int.ediv_mul_le n1 (by omega)
  have h1 : n1 / d1 * d2 * d1 ≤ n1 * d2 := by
    calc n1 / d1 * d2 * d1 = n1 / d1 * d1 * d2 := by ring
    _ ≤ n1 * d2 := mul_le_mul_of_nonneg_right h0 (le_of_lt hd2)
  have h2 : n1 / d1 * d2 ≤ n1 * d2 / d1 := by
    rw [Int.le_ediv_iff_mul_le hd1]; exact h1
  have h3 : n1 * d2 / d1 ≤ n2 * d1 / d1 := Int.ediv_le_ediv hd1 h
  rw [Int.mul_ediv_cancel _ (by omega)] at h3
  omega

/-! ### Lemmas on the constant-product quote `y * dx / (x + dx)` -/

theorem cp_nonneg {x y dx : ℤ} (hx : 0 < x) (hy : 0 ≤ y) (hdx : 0 ≤ dx) :
    0 ≤ y * dx / (x + dx) :=
  Int.ediv_nonneg (mul_nonneg hy hdx) (by omega)

theorem cp_lt {x y dx : ℤ} (hx : 0 < x) (hy : 0 < y) (hdx : 0 ≤ dx) :
    y * dx / (x + dx) < y := by
  rw [Int.ediv_lt_iff_lt_mul (by omega : (0:ℤ) < x + dx)]
  nlinarith

theorem cp_mono {x y b b' : ℤ} (hx : 0 < x) (hy : 0 ≤ y) (hb : 0 ≤ b)
    (hbb : b ≤ b') : y * b / (x + b) ≤ y * b' / (x + b') :=
  ediv_le_ediv_cross (by omega) (by omega) (mul_nonneg hy hb)
    (by nlinarith [mul_nonneg (mul_nonneg hy (sub_nonneg.mpr hbb)) (le_of_lt hx)])

/-- The key round-trip inequality: sending the truncated constant-product
quote back through the opposite constant-product formula can never exceed the
original input. -/
theorem cp_roundtrip {x y dx Q : ℤ} (hx : 0 < x) (hy : 0 < y) (hdx : 0 ≤ dx)
    (hQ : Q = y * dx / (x + dx)) : x * Q / (y + Q) ≤ dx := by
  have hQ0 : 0 ≤ Q := hQ ▸ cp_nonneg hx (le_of_lt hy) hdx
  have h1 : Q * (x + dx) ≤ y * dx := by
    rw [hQ]; exact Int.ediv_mul_le _ (by omega)
  have h2 : x * Q ≤ dx * (y + Q) := by nlinarith
  calc x * Q / (y + Q) ≤ dx * (y + Q) / (y + Q) := Int.ediv_le_ediv (by omega) h2
  _ = dx := Int.mul_ediv_cancel _ (by omega)

/-! ### The `computeD` Newton loop on positive balances -/

/-- With positive balances and `A ≥ 1` the `computeD` loop never divides by
zero and keeps its iterate at least `1`: the loop divisors `2b`, `2q` are
non-zero and the Newton denominator `d(2A-1) + 3·dProd` stays positive, while
the next iterate's numerator dominates its denominator. -/
theorem computeDLoop_pos {b q A : ℤ} (hb : 1 ≤ b) (hq : 1 ≤ q) (hA : 1 ≤ A) :
    ∀ (fuel : ℕ) (d : ℤ), 1 ≤ d →
      ∃ r, StableSwapHelper.computeDLoop b q A fuel d = some r ∧ 1 ≤ r := by
  intro fuel
  induction fuel with
  | zero => exact fun d hd => ⟨d, rfl, hd⟩
  | succ n ih =>
    intro d hd
    have h2b : (2 * b) ≠ 0 := by omega
    have h2q : (2 * q) ≠ 0 := by omega
    set dProd1 := tdiv (d * d) (2 * b) with hdProd1
    set dProd := tdiv (dProd1 * d) (2 * q) with hdProd
    have hP1 : 0 ≤ dProd1 := by
      rw [hdProd1, tdiv_eq_of_nonneg (by nlinarith) (by omega)]
      exact Int.ediv_nonneg (by nlinarith) (by omega)
    have hP : 0 ≤ dProd := by
      rw [hdProd, tdiv_eq_of_nonneg (by nlinarith) (by omega)]
      exact Int.ediv_nonneg (by nlinarith) (by omega)
    have hden : d * (2 * A - 1) + 3 * dProd ≠ 0 := by nlinarith
    have hnum_ge : d * (2 * A - 1) + 3 * dProd ≤ d * (2 * dProd + (b + q) * 2 * A) := by
      rcases (by omega : d = 1 ∨ 2 ≤ d) with h1 | h2
      · have hz1 : dProd1 = 0 := by
          rw [hdProd1, h1, tdiv_eq_of_nonneg (by norm_num) (by omega)]
          exact Int.ediv_eq_zero_of_lt (by norm_num) (by omega)
        have hz : dProd = 0 := by
          rw [hdProd, hz1, tdiv_eq_of_nonneg (by norm_num) (by omega)]
          simp
        subst h1
        nlinarith
      · nlinarith [mul_nonneg hP (by omega : (0:ℤ) ≤ 2 * d - 3),
          mul_nonneg (mul_nonneg (by omega : (0:ℤ) ≤ 2 * d) (by omega : (0:ℤ) ≤ A))
            (by omega : (0:ℤ) ≤ b + q - 1)]
    have hNext : ∃ dN, StableSwapHelper.compuateDNext d dProd (b + q) A = some dN ∧ 1 ≤ dN := by
      refine ⟨tdiv (d * (2 * dProd + (b + q) * 2 * A)) (d * (2 * A - 1) + 3 * dProd), ?_, ?_⟩
      · simp only [StableSwapHelper.compuateDNext]
        rw [tdivOpt_eq_some hden]
      · rw [tdiv_eq_of_nonneg (by nlinarith) (by nlinarith)]
        rw [Int.le_ediv_iff_mul_le (by nlinarith)]
        nlinarith
    obtain ⟨dN, hdN, hdN1⟩ := hNext
    have hrec : StableSwapHelper.computeDLoop b q A (n + 1) d =
        (if dN - d = 1 ∨ dN - d = -1 ∨ dN - d = 0 then some dN
         else StableSwapHelper.computeDLoop b q A n dN) := by
      simp only [StableSwapHelper.computeDLoop, tdivOpt_eq_some h2b, tdivOpt_eq_some h2q,
        ← hdProd1, ← hdProd, hdN, Option.bind_some, Option.some_bind, bind, Option.bind]
    rw [hrec]
    split
    · exact ⟨dN, rfl, hdN1⟩
    · exact ih dN hdN1

/-! ### Bounds on the constant-product swap quotes -/

/-- On a constant-product pool with positive reserves and fee rates within
10000 bps, a forward quote for a non-negative input is non-negative and at
most the fee-free truncated constant-product quote. -/
theorem v2_forward_le (p : PoolInfo) (dx dy : ℤ) (hv : p.swapType = SwapType.v2)
    (hx : 0 < p.x) (hy : 0 < p.y)
    (hfa : 0 ≤ p.totalAdminFee) (hfa2 : p.totalAdminFee ≤ 10000)
    (hfl : 0 ≤ p.totalLpFee) (hfl2 : p.totalLpFee ≤ 10000)
    (hdx : 0 ≤ dx) (h : p.getXToYAmount dx = some dy) :
    0 ≤ dy ∧ dy ≤ p.y * dx / (p.x + dx) := by
  simp only [PoolInfo.getXToYAmount, PoolInfo.BPS_SCALING, PoolInfo._computeAmount, hv,
    if_true] at h
  cases hfd : p.feeDirection with
  | X =>
    simp only [hfd, reduceCtorEq, if_true, if_false, reduceIte] at h
    set a1 := dx - tdiv (dx * p.totalAdminFee) 10000 with ha1
    have ha1n : 0 ≤ a1 := feeCut_nonneg hdx hfa hfa2
    have ha1le : a1 ≤ dx := feeCut_le hdx hfa
    set a2 := a1 - tdiv (a1 * p.totalLpFee) 10000 with ha2
    have ha2n : 0 ≤ a2 := feeCut_nonneg ha1n hfl hfl2
    have ha2le : a2 ≤ a1 := feeCut_le ha1n hfl
    rw [if_neg (by omega)] at h
    rw [tdivOpt_eq_some (by omega : p.x + a2 ≠ 0)] at h
    simp only [Option.bind_some, Option.some_bind, bind, Option.bind, Option.some.injEq] at h
    have hq : tdiv (p.y * a2) (p.x + a2) = p.y * a2 / (p.x + a2) :=
      tdiv_eq_of_nonneg (mul_nonneg (le_of_lt hy) ha2n) (by omega)
    subst h
    rw [hq]
    refine ⟨cp_nonneg hx (le_of_lt hy) ha2n, ?_⟩
    exact cp_mono hx (le_of_lt hy) ha2n (by omega)
  | Y =>
    simp only [hfd, reduceCtorEq, if_true, if_false, reduceIte] at h
    set a2 := dx - tdiv (dx * p.totalLpFee) 10000 with ha2
    have ha2n : 0 ≤ a2 := feeCut_nonneg hdx hfl hfl2
    have ha2le : a2 ≤ dx := feeCut_le hdx hfl
    rw [if_neg (by omega)] at h
    rw [tdivOpt_eq_some (by omega : p.x + a2 ≠ 0)] at h
    simp only [Option.bind_some, Option.some_bind, bind, Option.bind, Option.some.injEq] at h
    have hq : tdiv (p.y * a2) (p.x + a2) = p.y * a2 / (p.x + a2) :=
      tdiv_eq_of_nonneg (mul_nonneg (le_of_lt hy) ha2n) (by omega)
    have hdy0 : 0 ≤ tdiv (p.y * a2) (p.x + a2) := by
      rw [hq]; exact cp_nonneg hx (le_of_lt hy) ha2n
    have hdyle : tdiv (p.y * a2) (p.x + a2) ≤ p.y * dx / (p.x + dx) := by
      rw [hq]; exact cp_mono hx (le_of_lt hy) ha2n (by omega)
    subst h
    constructor
    · exact feeCut_nonneg hdy0 hfa hfa2
    · calc tdiv (p.y * a2) (p.x + a2) - tdiv (tdiv (p.y * a2) (p.x + a2) * p.totalAdminFee) 10000
          ≤ tdiv (p.y * a2) (p.x + a2) := feeCut_le hdy0 hfa
      _ ≤ p.y * dx / (p.x + dx) := hdyle

/-- The mirror-image bound for the reverse quote. -/
theorem v2_reverse_le (p : PoolInfo) (dy dx : ℤ) (hv : p.swapType = SwapType.v2)
    (hx : 0 < p.x) (hy : 0 < p.y)
    (hfa : 0 ≤ p.totalAdminFee) (hfa2 : p.totalAdminFee ≤ 10000)
    (hfl : 0 ≤ p.totalLpFee) (hfl2 : p.totalLpFee ≤ 10000)
    (hdy : 0 ≤ dy) (h : p.getYToXAmount dy = some dx) :
    0 ≤ dx ∧ dx ≤ p.x * dy / (p.y + dy) := by
  simp only [PoolInfo.getYToXAmount, PoolInfo.BPS_SCALING, PoolInfo._computeAmount, hv,
    if_true] at h
  cases hfd : p.feeDirection with
  | Y =>
    simp only [hfd, reduceCtorEq, if_true, if_false, reduceIte] at h
    set a1 := dy - tdiv (dy * p.totalAdminFee) 10000 with ha1
    have ha1n : 0 ≤ a1 := feeCut_nonneg hdy hfa hfa2
    have ha1le : a1 ≤ dy := feeCut_le hdy hfa
    set a2 := a1 - tdiv (a1 * p.totalLpFee) 10000 with ha2
    have ha2n : 0 ≤ a2 := feeCut_nonneg ha1n hfl hfl2
    have ha2le : a2 ≤ a1 := feeCut_le ha1n hfl
    rw [if_neg (by omega)] at h
    rw [tdivOpt_eq_some (by omega : p.y + a2 ≠ 0)] at h
    simp only [Option.bind_some, Option.some_bind, bind, Option.bind, Option.some.injEq] at h
    have hq : tdiv (p.x * a2) (p.y + a2) = p.x * a2 / (p.y + a2) :=
      tdiv_eq_of_nonneg (mul_nonneg (le_of_lt hx) ha2n) (by omega)
    subst h
    rw [hq]
    refine ⟨cp_nonneg hy (le_of_lt hx) ha2n, ?_⟩
    exact cp_mono hy (le_of_lt hx) ha2n (by omega)
  | X =>
    simp only [hfd, reduceCtorEq, if_true, if_false, reduceIte] at h
    set a2 := dy - tdiv (dy * p.totalLpFee) 10000 with ha2
    have ha2n : 0 ≤ a2 := feeCut_nonneg hdy hfl hfl2
    have ha2le : a2 ≤ dy := feeCut_le hdy hfl
    rw [if_neg (by omega)] at h
    rw [tdivOpt_eq_some (by omega : p.y + a2 ≠ 0)] at h
    simp only [Option.bind_some, Option.some_bind, bind, Option.bind, Option.some.injEq] at h
    have hq : tdiv (p.x * a2) (p.y + a2) = p.x * a2 / (p.y + a2) :=
      tdiv_eq_of_nonneg (mul_nonneg (le_of_lt hx) ha2n) (by omega)
    have hdx0 : 0 ≤ tdiv (p.x * a2) (p.y + a2) := by
      rw [hq]; exact cp_nonneg hy (le_of_lt hx) ha2n
    have hdxle : tdiv (p.x * a2) (p.y + a2) ≤ p.x * dy / (p.y + dy) := by
      rw [hq]; exact cp_mono hy (le_of_lt hx) ha2n (by omega)
    subst h
    constructor
    · exact feeCut_nonneg hdx0 hfa hfa2
    · calc tdiv (p.x * a2) (p.y + a2) - tdiv (tdiv (p.x * a2) (p.y + a2) * p.totalAdminFee) 10000
          ≤ tdiv (p.x * a2) (p.y + a2) := feeCut_le hdx0 hfa
      _ ≤ p.x * dy / (p.y + dy) := hdxle

/-! ### Claim theorems -/

/-- C1: for every ConstantProduct pool with a non-empty `x` reserve and every
input amount, `getXToYAmount` equals the claim's pipeline (deduct the total
admin fee from `dx` when the fee direction is `ChargeOnX`, then the total LP
fee, clamp a negative post-fee input to `0`, quote
`reserveY * dxAfterFee / (reserveX + dxAfterFee)` with truncation, deduct the
total admin fee from the output when the fee direction is `ChargeOnY`); and
on the spec's scenario pool (`reserveX = reserveY = 1_000_000`,
`totalLpFeeBps = 30`, `totalAdminFeeBps = 0`, `ChargeOnX`) the quote for
input `10000` is `9871`. -/
theorem getXToYAmount_matches_fee_pipeline_spec :
    (∀ (p : PoolInfo) (dx : ℤ), p.swapType = SwapType.v2 → 0 < p.x →
      p.getXToYAmount dx = specConstantProductQuote p dx) ∧
    feeScenarioPool.getXToYAmount 10000 = some 9871 := by
  constructor
  · intro p dx hv hx
    simp only [PoolInfo.getXToYAmount, specConstantProductQuote, PoolInfo.BPS_SCALING,
      PoolInfo._computeAmount, hv, if_true]
    set a1 := if p.feeDirection = FeeDirection.X
      then dx - tdiv (dx * p.totalAdminFee) 10000 else dx with ha1
    set a2 := a1 - tdiv (a1 * p.totalLpFee) 10000 with ha2
    by_cases h2 : a2 < 0
    · rw [if_pos h2]
      have hmax : max a2 0 = 0 := by omega
      rw [hmax]
      rw [tdivOpt_eq_some (by omega : p.x + 0 ≠ 0)]
      have hz : tdiv (p.y * 0) (p.x + 0) = 0 := by
        simp [tdiv]
      rw [hz]
      show some 0 = some (if p.feeDirection = FeeDirection.Y
        then 0 - tdiv (0 * p.totalAdminFee) 10000 else 0)
      have hz2 : tdiv ((0:ℤ) * p.totalAdminFee) 10000 = 0 := by
        simp [tdiv]
      split
      · rw [hz2]; norm_num
      · rfl
    · rw [if_neg h2]
      have hmax : max a2 0 = a2 := by omega
      rw [hmax]
      rw [tdivOpt_eq_some (by omega : p.x + a2 ≠ 0)]
      rfl
  · decide

/-- Witness for C1 at the scenario pool and input `10000`. -/
theorem getXToYAmount_matches_fee_pipeline_spec_witness :
    feeScenarioPool.swapType = SwapType.v2 ∧ 0 < feeScenarioPool.x ∧
    feeScenarioPool.getXToYAmount 10000 = specConstantProductQuote feeScenarioPool 10000 :=
  ⟨by decide, by decide,
    getXToYAmount_matches_fee_pipeline_spec.1 feeScenarioPool 10000 rfl (by decide)⟩

/-- C2 counterexample: on the StableSwap pool with reserves `x = 23`,
`y = 8`, `A = 2`, unit scales and zero fees (a valid pool: positive reserves,
fees within 10000 bps), the forward quote for input `1` is `1`, and feeding
that output back through the reverse quote returns `2 > 1`: the round trip
gains value, refuting the claim for stable pools. -/
theorem stable_roundTrip_output_exceeds_input :
    (stableRoundTripPool.getXToYAmount 1).bind stableRoundTripPool.getYToXAmount = some 2 ∧
    ¬ ((2 : ℤ) ≤ 1) :=
  ⟨by decide, by decide⟩

/-- C2 (amended: restricted to ConstantProduct pools): for every valid
constant-product pool (positive reserves, fee rates within 10000 bps) and
positive input, a forward quote followed by a reverse quote of the resulting
output never exceeds the original input. -/
theorem v2_roundTrip_never_exceeds_input (p : PoolInfo) (dx dy back : ℤ)
    (hv : p.swapType = SwapType.v2) (hx : 0 < p.x) (hy : 0 < p.y)
    (hfa : 0 ≤ p.totalAdminFee) (hfa2 : p.totalAdminFee ≤ 10000)
    (hfl : 0 ≤ p.totalLpFee) (hfl2 : p.totalLpFee ≤ 10000)
    (hdx : 0 < dx) (hf : p.getXToYAmount dx = some dy)
    (hr : p.getYToXAmount dy = some back) : back ≤ dx := by
  obtain ⟨hdy0, hdyle⟩ := v2_forward_le p dx dy hv hx hy hfa hfa2 hfl hfl2 (le_of_lt hdx) hf
  obtain ⟨hb0, hble⟩ := v2_reverse_le p dy back hv hx hy hfa hfa2 hfl hfl2 hdy0 hr
  have h1 : p.x * dy / (p.y + dy) ≤
      p.x * (p.y * dx / (p.x + dx)) / (p.y + p.y * dx / (p.x + dx)) :=
    cp_mono hy (le_of_lt hx) hdy0 hdyle
  have h2 : p.x * (p.y * dx / (p.x + dx)) / (p.y + p.y * dx / (p.x + dx)) ≤ dx :=
    cp_roundtrip hx hy (le_of_lt hdx) rfl
  omega

/-- Witness for the amended C2 on the fee scenario pool: `10000 → 9871 →
9746 ≤ 10000`. -/
theorem v2_roundTrip_never_exceeds_input_witness :
    feeScenarioPool.getXToYAmount 10000 = some 9871 ∧
    feeScenarioPool.getYToXAmount 9871 = some 9746 ∧ (9746 : ℤ) ≤ 10000 :=
  ⟨by decide, by decide,
    v2_roundTrip_never_exceeds_input feeScenarioPool 10000 9871 9746 rfl (by decide)
      (by decide) (by decide) (by decide) (by decide) (by decide) (by decide) (by decide)
      (by decide)⟩

/-- C3 counterexample: with the non-negative balances `(0, 1)` and `A = 1`,
`computeD` reaches the division `dProd * d / (2 * b)` with `b = 0` in its
first iteration and throws (`none`), refuting "no division-by-zero branch is
reachable for non-negative balances". -/
theorem computeD_divides_by_zero_on_zero_balance :
    StableSwapHelper.computeD 0 1 1 = none := by decide

/-- C3 (amended: balances restricted to positive): for every pair of positive
balances and every `A ≥ 1`, `computeD` returns a value without raising any
error; the iteration count is structurally capped at 256 (the loop recursion
carries exactly 256 fuel), so it returns even on non-convergent inputs. -/
theorem computeD_returns_on_positive_balances (b q A : ℤ)
    (hb : 1 ≤ b) (hq : 1 ≤ q) (hA : 1 ≤ A) :
    (StableSwapHelper.computeD b q A).isSome := by
  obtain ⟨r, hr, _⟩ := computeDLoop_pos hb hq hA 256 (b + q) (by omega)
  rw [StableSwapHelper.computeD, if_neg (by omega : ¬ b + q = 0), hr]
  rfl

/-- Witness for the amended C3 at balances `(5, 7)`, `A = 2`. -/
theorem computeD_returns_on_positive_balances_witness :
    (StableSwapHelper.computeD 5 7 2).isSome :=
  computeD_returns_on_positive_balances 5 7 2 (by decide) (by decide) (by decide)

/-- C4 counterexample: at the non-negative balances `(0, 2)` with `A = 1`,
`computeD` returns no value at all (division by zero), so it does not return
a non-negative value for all non-negative balances. -/
theorem computeD_no_result_on_zero_positive_balance :
    StableSwapHelper.computeD 0 2 1 = none := by decide

/-- C4 (amended: the non-negativity claim restricted to positive balances,
the zero case as in the claim): for positive balances and `A ≥ 1` the
returned invariant is non-negative (`getD (-1)` forces failure to count as
negative), and for balances `(0, 0)` the result is exactly `0`. -/
theorem computeD_nonneg_on_positive_balances :
    (∀ b q A : ℤ, 1 ≤ b → 1 ≤ q → 1 ≤ A →
      0 ≤ (StableSwapHelper.computeD b q A).getD (-1)) ∧
    (∀ A : ℤ, StableSwapHelper.computeD 0 0 A = some 0) := by
  constructor
  · intro b q A hb hq hA
    obtain ⟨r, hr, hr1⟩ := computeDLoop_pos hb hq hA 256 (b + q) (by omega)
    rw [StableSwapHelper.computeD, if_neg (by omega : ¬ b + q = 0), hr, Option.getD_some]
    omega
  · intro A
    simp [StableSwapHelper.computeD]

/-- Witness for the amended C4 at balances `(3, 4)`, `A = 5` and the zero
case at `A = 9`. -/
theorem computeD_nonneg_on_positive_balances_witness :
    0 ≤ (StableSwapHelper.computeD 3 4 5).getD (-1) ∧
    StableSwapHelper.computeD 0 0 9 = some 0 :=
  ⟨computeD_nonneg_on_positive_balances.1 3 4 5 (by decide) (by decide) (by decide),
    computeD_nonneg_on_positive_balances.2 9⟩

/-- C5 (the code bug): `computeDDecimal` computes the invariant of the
normalized balances but, lacking a `return` statement, discards it and
returns `undefined` (`some ()`), carrying no numeric value — even though the
underlying `computeD` call on the same normalized balances succeeds with the
invariant `2000000`. -/
theorem computeDDecimal_returns_undefined :
    StableSwapHelper.computeDDecimal 1000000 1000000 1 0 0 = some () ∧
    StableSwapHelper.computeD (1000000 * bigintPow 10 0) (1000000 * bigintPow 10 0) 1 =
      some 2000000 :=
  ⟨by decide, by decide⟩

/-- The slippage factor of the source is exactly "round `(1 - s) * 1e9` to
the nearest integer, half towards `+∞`", i.e. `⌊(1 - s) * 10^9 + 1/2⌋`. -/
theorem slippageRoundFactor_eq (s : ℚ) :
    PoolInfo.slippageRoundFactor s = ⌊(1 - s) * 10 ^ 9 + 1 / 2⌋ := by
  have hden : (0:ℚ) < (s.den : ℚ) := by exact_mod_cast s.den_pos
  have key : (1 - s) * 10 ^ 9 + 1 / 2
      = ((2 * (((s.den : ℤ) - s.num) * 10 ^ 9) + s.den : ℤ) : ℚ) / ((2 * s.den : ℕ) : ℚ) := by
    conv_lhs => rw [← Rat.num_div_den s]
    push_cast
    field_simp
    ring
  rw [PoolInfo.slippageRoundFactor, key, Rat.floor_intCast_div_natCast]
  rw [Int.fdiv_eq_ediv _ (by positivity)]
  congr 1

/-- C6 counterexample: at slippage `1/2048` (exactly representable, with
`(1 - 1/2048) * 10^9 = 999511718.75`), the source's `Math.round` factor is
`999511719` while the claim's floor factor is `999511718`; on a pool quoting
`2*10^9` the two minimum outputs differ (`1999023438 ≠ 1999023436`). -/
theorem minOutput_uses_round_not_floor :
    slippagePool.getXToYMinOutputAmount 1 (Rat.divInt 1 2048) = some 1999023438 ∧
    specMinOutputFloor slippagePool 1 (Rat.divInt 1 2048) = some 1999023436 ∧
    slippagePool.getXToYMinOutputAmount 1 (Rat.divInt 1 2048) ≠
      specMinOutputFloor slippagePool 1 (Rat.divInt 1 2048) := by
  have hA : slippagePool.getXToYMinOutputAmount 1 (Rat.divInt 1 2048) = some 1999023438 := by
    decide
  have hB : specMinOutputFloor slippagePool 1 (Rat.divInt 1 2048) = some 1999023436 := by
    have hfl : ⌊(1 - Rat.divInt 1 2048) * (10:ℚ) ^ 9⌋ = 999511718 := by
      have hval : (1 - Rat.divInt 1 2048) * (10:ℚ) ^ 9
          = ((3998046875 : ℤ) : ℚ) / ((4 : ℕ) : ℚ) := by
        rw [Rat.divInt_eq_div]
        norm_num
      rw [hval, Rat.floor_intCast_div_natCast]
      decide
    have hq : slippagePool.getXToYAmount 1 = some 2000000000 := by decide
    rw [specMinOutputFloor, hq, hfl]
    decide
  refine ⟨hA, hB, ?_⟩
  rw [hA, hB]
  decide

/-- C6 (amended: the factor is rounded to the nearest integer, half up, not
down): for every pool, input amount, and slippage fraction in `[0, 1]`,
`getXToYMinOutputAmount` returns
`quote * round((1 - slippage) * 1e9) / 1e9`, where `round` is
round-to-nearest with half towards `+∞` (`Math.round`) and the final
division by `1e9` truncates. -/
theorem minOutput_slippage_round_spec (p : PoolInfo) (dx : ℤ) (s : ℚ)
    (_h0 : 0 ≤ s) (_h1 : s ≤ 1) :
    p.getXToYMinOutputAmount dx s = specMinOutputRound p dx s := by
  rw [PoolInfo.getXToYMinOutputAmount, specMinOutputRound, slippageRoundFactor_eq]

/-- Witness for the amended C6 at slippage `0`. -/
theorem minOutput_slippage_round_spec_witness :
    slippagePool.getXToYMinOutputAmount 1 0 = specMinOutputRound slippagePool 1 0 :=
  minOutput_slippage_round_spec slippagePool 1 0 (le_refl 0) (by decide)

/-- C9: on a ConstantProduct pool with positive reserves and admin/LP fee
rates within 10000 bps, the quote for any non-negative input is non-negative
and strictly below the `y` reserve. -/
theorem v2_quote_nonneg_lt_reserveY (p : PoolInfo) (dx dy : ℤ)
    (hv : p.swapType = SwapType.v2) (hx : 0 < p.x) (hy : 0 < p.y)
    (hfa : 0 ≤ p.totalAdminFee) (hfa2 : p.totalAdminFee ≤ 10000)
    (hfl : 0 ≤ p.totalLpFee) (hfl2 : p.totalLpFee ≤ 10000)
    (hdx : 0 ≤ dx) (h : p.getXToYAmount dx = some dy) :
    0 ≤ dy ∧ dy < p.y := by
  obtain ⟨h0, hle⟩ := v2_forward_le p dx dy hv hx hy hfa hfa2 hfl hfl2 hdx h
  exact ⟨h0, lt_of_le_of_lt hle (cp_lt hx hy hdx)⟩

/-- Witness for C9 on a pool with all four fee components non-zero and the
admin fee on the output leg: input `100` quotes `181`, and `0 ≤ 181 < 2000`. -/
theorem v2_quote_nonneg_lt_reserveY_witness :
    0 ≤ (181 : ℤ) ∧ (181 : ℤ) < feeOnYPool.y :=
  v2_quote_nonneg_lt_reserveY feeOnYPool 100 181 rfl (by decide) (by decide) (by decide)
    (by decide) (by decide) (by decide) (by decide) (by decide)

/-- C7: `getDepositAmount` returns `(0,0)` whenever the pool is uninitialized
or either max is non-positive, and otherwise takes the binding-constraint
side in full with the other side its truncated proportional counterpart
clamped to its max (the claim's wording, `specDepositAmount`); the result
never exceeds the requested maxima, and an uninitialized pool always yields
`(0, 0)`. -/
theorem deposit_quote_spec :
    (∀ (p : PoolInfo) (xMax yMax : ℤ),
      p.getDepositAmount xMax yMax = specDepositAmount p xMax yMax) ∧
    (∀ (p : PoolInfo) (xMax yMax : ℤ), 0 < xMax → 0 < yMax →
      (p.getDepositAmount xMax yMax).1 ≤ xMax ∧ (p.getDepositAmount xMax yMax).2 ≤ yMax) ∧
    (∀ (p : PoolInfo) (xMax yMax : ℤ), p.isInitialized = false →
      p.getDepositAmount xMax yMax = (0, 0)) := by
  refine ⟨?_, ?_, ?_⟩
  · intro p xMax yMax
    simp only [PoolInfo.getDepositAmount, specDepositAmount, PoolInfo.getDepositXAmount,
      PoolInfo.getDepositYAmount, PoolInfo.isInitialized, Int.min_def,
      decide_eq_true_eq, gt_iff_lt]
    split_ifs <;> simp_all [Prod.mk.injEq] <;> omega
  · intro p xMax yMax hx hy
    simp only [PoolInfo.getDepositAmount, PoolInfo.getDepositXAmount,
      PoolInfo.getDepositYAmount, PoolInfo.isInitialized, decide_eq_true_eq, gt_iff_lt]
    split_ifs <;> constructor <;> simp_all <;> omega
  · intro p xMax yMax h
    rw [PoolInfo.getDepositAmount, if_pos]
    left
    simp [h]

/-- Witness for C7: an initialized `100 : 350` pool with maxima `(30, 50)`
(the `y` side binds: the result is `(14, 50)`), and an uninitialized pool. -/
theorem deposit_quote_spec_witness :
    depositPool.getDepositAmount 30 50 = specDepositAmount depositPool 30 50 ∧
    ((depositPool.getDepositAmount 30 50).1 ≤ 30 ∧
      (depositPool.getDepositAmount 30 50).2 ≤ 50) ∧
    uninitializedPool.getDepositAmount 7 9 = (0, 0) :=
  ⟨deposit_quote_spec.1 depositPool 30 50,
    deposit_quote_spec.2.1 depositPool 30 50 (by decide) (by decide),
    deposit_quote_spec.2.2 uninitializedPool 7 9 (by decide)⟩

/-! ### The parse/format round trip (C8)

`Nat.digits`-based facts about the decimal rendering, the behaviour of the
spec-modelled `formatNumeric`, of `indexOfChar` and of the regex checker on
canonical decimal strings, assembled into the round-trip theorem. -/

theorem natDigitsAux_eq : ∀ (fuel n : ℕ), n ≤ fuel → natDigitsAux fuel n = Nat.digits 10 n := by
  intro fuel
  induction fuel with
  | zero =>
    intro n hn
    have : n = 0 := by omega
    subst this
    simp [natDigitsAux]
  | succ f ih =>
    intro n hn
    cases n with
    | zero => simp [natDigitsAux]
    | succ m =>
      rw [show natDigitsAux (f + 1) (m + 1) = ((m + 1) % 10) :: natDigitsAux f ((m + 1) / 10)
        from rfl]
      rw [ih ((m + 1) / 10) (by omega : (m + 1) / 10 ≤ f)]
      rw [Nat.digits_def' (by norm_num : 1 < 10) (Nat.succ_pos m)]

theorem natToChars_eq (n : ℕ) :
    natToChars n = if n = 0 then ['0'] else (Nat.digits 10 n).reverse.map Nat.digitChar := by
  rw [natToChars]
  split
  · rfl
  · rw [natDigitsAux_eq n n le_rfl]

theorem digitChar_toNat : ∀ d, d < 10 → (Nat.digitChar d).toNat = 48 + d := by decide

theorem digitChar_isDigit : ∀ d, d < 10 → isDigitCh (Nat.digitChar d) = true := by decide

theorem digitChar_ne_zeroCh : ∀ d, d < 10 → d ≠ 0 → Nat.digitChar d ≠ '0' := by decide

theorem isDigitCh_ne_dot {c : Char} (h : isDigitCh c = true) : c ≠ '.' := by
  intro he
  subst he
  simp [isDigitCh] at h

theorem charsToNat_cons_zero (t : List Char) : charsToNat ('0' :: t) = charsToNat t := by
  simp [charsToNat]

theorem charsToNat_replicate_zero (k : ℕ) (l : List Char) :
    charsToNat (List.replicate k '0' ++ l) = charsToNat l := by
  induction k with
  | zero => rfl
  | succ n ih =>
    rw [List.replicate_succ, List.cons_append, charsToNat_cons_zero]
    exact ih

theorem charsToNat_concat (l : List Char) (c : Char) :
    charsToNat (l ++ [c]) = 10 * charsToNat l + (c.toNat - 48) := by
  simp [charsToNat, List.foldl_append]

theorem charsToNat_ofDigits : ∀ L : List ℕ, (∀ d ∈ L, d < 10) →
    charsToNat (L.reverse.map Nat.digitChar) = Nat.ofDigits 10 L := by
  intro L
  induction L with
  | nil => intro _; rfl
  | cons d L ih =>
    intro hL
    rw [List.reverse_cons, List.map_append, List.map_singleton, charsToNat_concat]
    rw [ih (fun x hx => hL x (List.mem_cons_of_mem d hx))]
    rw [digitChar_toNat d (hL d (List.mem_cons_self d L))]
    rw [Nat.ofDigits_cons]
    omega

theorem charsToNat_natToChars (n : ℕ) : charsToNat (natToChars n) = n := by
  rw [natToChars_eq]
  split
  · subst ‹n = 0›
    decide
  · rw [charsToNat_ofDigits _ (fun d hd => Nat.digits_lt_base (by norm_num) hd)]
    exact Nat.ofDigits_digits 10 n

theorem natToChars_all_digits (n : ℕ) : ∀ c ∈ natToChars n, isDigitCh c = true := by
  rw [natToChars_eq]
  split
  · intro c hc
    simp at hc
    subst hc
    decide
  · intro c hc
    simp only [List.mem_map, List.mem_reverse] at hc
    obtain ⟨d, hd, rfl⟩ := hc
    exact digitChar_isDigit d (Nat.digits_lt_base (by norm_num) hd)

theorem natToChars_ne_nil (n : ℕ) : natToChars n ≠ [] := by
  rw [natToChars_eq]
  split
  · simp
  · have h1 : Nat.digits 10 n ≠ [] := Nat.digits_ne_nil_iff_ne_zero.mpr ‹¬ n = 0›
    simp [h1]

theorem natToChars_shape (n : ℕ) :
    natToChars n = ['0'] ∨ ∃ c t, natToChars n = c :: t ∧ c ≠ '0' := by
  rw [natToChars_eq]
  split
  · exact Or.inl rfl
  · right
    have hne : n ≠ 0 := ‹¬ n = 0›
    have h1 : Nat.digits 10 n ≠ [] := Nat.digits_ne_nil_iff_ne_zero.mpr hne
    have hL : (Nat.digits 10 n).dropLast ++ [(Nat.digits 10 n).getLast h1] = Nat.digits 10 n :=
      List.dropLast_append_getLast h1
    refine ⟨Nat.digitChar ((Nat.digits 10 n).getLast h1),
      (Nat.digits 10 n).dropLast.reverse.map Nat.digitChar, ?_, ?_⟩
    · conv_lhs => rw [← hL]
      simp
    · have hmem : (Nat.digits 10 n).getLast h1 ∈ Nat.digits 10 n := List.getLast_mem h1
      exact digitChar_ne_zeroCh _ (Nat.digits_lt_base (by norm_num) hmem)
        (Nat.getLast_digit_ne_zero 10 hne)

theorem not_dot_of_all_digits {l : List Char} (h : ∀ c ∈ l, isDigitCh c = true) :
    '.' ∉ l := by
  intro hmem
  have := h '.' hmem
  simp [isDigitCh] at this

theorem formatNumeric_two (a b : Char) (r : List Char) :
    formatNumeric (a :: b :: r) =
      if a = '0' ∧ b ≠ '.' then formatNumeric (b :: r) else a :: b :: r := by
  rfl

theorem formatNumeric_of_head_ne_zero {c : Char} (t : List Char) (hc : c ≠ '0') :
    formatNumeric (c :: t) = c :: t := by
  cases t with
  | nil => rfl
  | cons b r =>
    rw [formatNumeric_two, if_neg]
    intro hand
    exact hc hand.1

theorem formatNumeric_cons_zero {b : Char} (r : List Char) (hb : b ≠ '.') :
    formatNumeric ('0' :: b :: r) = formatNumeric (b :: r) := by
  rw [formatNumeric_two, if_pos ⟨rfl, hb⟩]

theorem formatNumeric_zero_dot (r : List Char) :
    formatNumeric ('0' :: '.' :: r) = '0' :: '.' :: r := by
  rw [formatNumeric_two, if_neg]
  intro hand
  exact hand.2 rfl

theorem formatNumeric_strip {b : Char} (r : List Char) (hb : b ≠ '.') :
    ∀ k, formatNumeric (List.replicate k '0' ++ b :: r) = formatNumeric (b :: r) := by
  intro k
  induction k with
  | zero => rfl
  | succ n ih =>
    rw [List.replicate_succ, List.cons_append]
    cases n with
    | zero =>
      simp only [List.replicate, List.nil_append]
      exact formatNumeric_cons_zero r hb
    | succ m =>
      rw [List.replicate_succ, List.cons_append] at ih ⊢
      rw [formatNumeric_cons_zero _ (by decide : ('0':Char) ≠ '.')]
      exact ih

theorem formatNumeric_strip_dot (r : List Char) :
    ∀ k, formatNumeric (List.replicate (k + 1) '0' ++ '.' :: r) = '0' :: '.' :: r := by
  intro k
  induction k with
  | zero =>
    simp only [List.replicate, List.nil_append]
    exact formatNumeric_zero_dot r
  | succ m ih =>
    rw [List.replicate_succ, List.cons_append]
    rw [List.replicate_succ, List.cons_append]
    rw [formatNumeric_cons_zero _ (by decide : ('0':Char) ≠ '.')]
    rw [← List.cons_append, ← List.replicate_succ]
    exact ih

theorem indexOfChar_not_mem {c : Char} : ∀ {l : List Char}, c ∉ l → indexOfChar c l = -1 := by
  intro l
  induction l with
  | nil => intro _; rfl
  | cons a t ih =>
    intro h
    have ha : a ≠ c := fun he => h (he ▸ List.mem_cons_self a t)
    rw [indexOfChar, if_neg ha]
    show (if indexOfChar c t = -1 then -1 else indexOfChar c t + 1) = -1
    rw [ih (fun hm => h (List.mem_cons_of_mem a hm))]
    norm_num

theorem indexOfChar_append_cons (I F : List Char) (hnot : '.' ∉ I) :
    indexOfChar '.' (I ++ '.' :: F) = I.length := by
  induction I with
  | nil =>
    simp [indexOfChar]
  | cons a t ih =>
    have ha : a ≠ '.' := fun he => hnot (he ▸ List.mem_cons_self a t)
    rw [List.cons_append, indexOfChar, if_neg ha]
    show (if indexOfChar '.' (t ++ '.' :: F) = -1 then -1
      else indexOfChar '.' (t ++ '.' :: F) + 1) = ((a :: t).length : ℤ)
    rw [ih (fun hm => hnot (List.mem_cons_of_mem a hm))]
    have h0 : (0:ℤ) ≤ (t.length : ℤ) := Int.natCast_nonneg _
    rw [if_neg (by omega)]
    simp only [List.length_cons]
    push_cast
    ring

theorem numericTail_digits : ∀ {l : List Char}, (∀ c ∈ l, isDigitCh c = true) →
    numericTail l = true := by
  intro l
  induction l with
  | nil => intro _; rfl
  | cons a t ih =>
    intro h
    have ha := h a (List.mem_cons_self a t)
    rw [numericTail, if_neg (isDigitCh_ne_dot ha)]
    rw [ha, ih (fun c hc => h c (List.mem_cons_of_mem a hc))]
    rfl

theorem numericTail_append_dot {I F : List Char} (hI : ∀ c ∈ I, isDigitCh c = true)
    (hF : ∀ c ∈ F, isDigitCh c = true) : numericTail (I ++ '.' :: F) = true := by
  induction I with
  | nil =>
    rw [List.nil_append, numericTail, if_pos rfl]
    exact List.all_eq_true.mpr hF
  | cons a t ih =>
    have ha := hI a (List.mem_cons_self a t)
    rw [List.cons_append, numericTail, if_neg (isDigitCh_ne_dot ha), ha,
      ih (fun c hc => hI c (List.mem_cons_of_mem a hc))]
    rfl

theorem matchesNumeric_append_dot {I F : List Char} (hne : I ≠ [])
    (hI : ∀ c ∈ I, isDigitCh c = true) (hF : ∀ c ∈ F, isDigitCh c = true) :
    matchesNumeric (I ++ '.' :: F) = true := by
  cases I with
  | nil => exact absurd rfl hne
  | cons a t =>
    rw [List.cons_append, matchesNumeric, hI a (List.mem_cons_self a t),
      numericTail_append_dot (fun c hc => hI c (List.mem_cons_of_mem a hc)) hF]
    rfl

theorem matchesNumeric_digits {l : List Char} (hne : l ≠ [])
    (h : ∀ c ∈ l, isDigitCh c = true) : matchesNumeric l = true := by
  cases l with
  | nil => exact absurd rfl hne
  | cons a t =>
    rw [matchesNumeric, h a (List.mem_cons_self a t),
      numericTail_digits (fun c hc => h c (List.mem_cons_of_mem a hc))]
    rfl

theorem hasTwoLeadingZeros_of_shape {l : List Char}
    (hshape : l = ['0'] ∨ ∃ c t, l = c :: t ∧ c ≠ '0') :
    ∀ F : List Char, hasTwoLeadingZeros (l ++ '.' :: F) = false := by
  intro F
  rcases hshape with h1 | ⟨c, t, hct, hc⟩
  · subst h1
    simp [hasTwoLeadingZeros]
  · subst hct
    cases t with
    | nil => simp [hasTwoLeadingZeros, hc]
    | cons b r => simp [hasTwoLeadingZeros, hc]

theorem hasTwoLeadingZeros_of_shape_plain {l : List Char}
    (hshape : l = ['0'] ∨ ∃ c t, l = c :: t ∧ c ≠ '0') :
    hasTwoLeadingZeros l = false := by
  rcases hshape with h1 | ⟨c, t, hct, hc⟩
  · subst h1
    rfl
  · subst hct
    cases t with
    | nil => rfl
    | cons b r => simp [hasTwoLeadingZeros, hc]

theorem filter_dot_append {I F : List Char} (hI : ∀ c ∈ I, isDigitCh c = true)
    (hF : ∀ c ∈ F, isDigitCh c = true) :
    (I ++ '.' :: F).filter (fun c => c ≠ '.') = I ++ F := by
  rw [List.filter_append, List.filter_cons]
  rw [List.filter_eq_self.mpr (fun c hc => by
    simp only [ne_eq, decide_eq_true_eq]
    exact isDigitCh_ne_dot (hI c hc))]
  rw [List.filter_eq_self.mpr (fun c hc => by
    simp only [ne_eq, decide_eq_true_eq]
    exact isDigitCh_ne_dot (hF c hc))]
  simp

theorem filter_dot_digits {l : List Char} (h : ∀ c ∈ l, isDigitCh c = true) :
    l.filter (fun c => c ≠ '.') = l :=
  List.filter_eq_self.mpr (fun c hc => by
    simp only [ne_eq, decide_eq_true_eq]
    exact isDigitCh_ne_dot (h c hc))

theorem fromString_canonical (I F : List Char) (hne : I ≠ [])
    (hI : ∀ c ∈ I, isDigitCh c = true) (hF : ∀ c ∈ F, isDigitCh c = true)
    (hshape : I = ['0'] ∨ ∃ c t, I = c :: t ∧ c ≠ '0') :
    DemicalFormat.fromString (I ++ '.' :: F) =
      some (DemicalFormat.new (charsToNat (I ++ F)) F.length) := by
  have hm := matchesNumeric_append_dot hne hI hF
  have hz := hasTwoLeadingZeros_of_shape hshape F
  have hfmt : formatNumeric (I ++ '.' :: F) = I ++ '.' :: F := by
    rcases hshape with h1 | ⟨c, t, hct, hc⟩
    · subst h1
      exact formatNumeric_zero_dot F
    · subst hct
      rw [List.cons_append]
      exact formatNumeric_of_head_ne_zero _ hc
  have hidx : indexOfChar '.' (I ++ '.' :: F) = I.length :=
    indexOfChar_append_cons I F (not_dot_of_all_digits hI)
  have hfil := filter_dot_append hI hF
  have hIlen : 1 ≤ I.length := by
    cases I with
    | nil => exact absurd rfl hne
    | cons a t => simp
  rw [DemicalFormat.fromString, if_neg (not_not_intro hm), if_neg (by simp [hz])]
  simp only [hfmt, hidx, hfil]
  have hdm : (if ((I ++ '.' :: F).length : ℤ) ≤
      ((I ++ '.' :: F).length : ℤ) - 1 - (I.length : ℤ) then (0:ℤ)
      else ((I ++ '.' :: F).length : ℤ) - 1 - (I.length : ℤ)) = (F.length : ℤ) := by
    have hlen : (I ++ '.' :: F).length = I.length + 1 + F.length := by
      simp [List.length_append]
      omega
    rw [hlen, if_neg (by push_cast; omega)]
    push_cast
    ring
  rw [hdm]

theorem toString_pos_of_shape (v : ℤ) (d : ℕ) (hd : 0 < d) (I F : List Char)
    (hIdot : '.' ∉ I)
    (hfmt : formatNumeric
        ((List.replicate d '0' ++ intToChars v).take
            ((List.replicate d '0' ++ intToChars v).length - d) ++
          '.' :: (List.replicate d '0' ++ intToChars v).drop
            ((List.replicate d '0' ++ intToChars v).length - d)) = I ++ '.' :: F)
    (hFlen : F.length = d) :
    DemicalFormat.toString ⟨v, (d:ℤ)⟩ true = I ++ '.' :: F := by
  rw [DemicalFormat.toString]
  rw [show (⟨v, (d:ℤ)⟩ : DemicalFormat).demical = (d:ℤ) from rfl,
    show (⟨v, (d:ℤ)⟩ : DemicalFormat).value = v from rfl]
  rw [if_neg (show ¬ ((d:ℤ) ≤ 0) by omega)]
  simp only [Int.toNat_natCast]
  rw [hfmt]
  rw [if_pos (show True ∧ (0:ℤ) < (d:ℤ) from ⟨trivial, by omega⟩)]
  rw [indexOfChar_append_cons I F hIdot]
  rw [if_neg (show ¬ ((I.length:ℤ) = -1) by omega)]
  have hlen : (((I ++ '.' :: F).length : ℕ) : ℤ) = (I.length : ℤ) + 1 + (F.length : ℤ) := by
    simp [List.length_append]
    omega
  rw [hlen]
  rw [indexOfChar_append_cons I F hIdot]
  have hzero : (d:ℤ) - ((I.length:ℤ) + 1 + (F.length:ℤ) - 1 - (I.length:ℤ)) = 0 := by
    omega
  rw [hzero]
  norm_num

theorem toString_pos_demical (v d : ℕ) (hd : 0 < d) :
    ∃ I F : List Char,
      DemicalFormat.toString ⟨(v:ℤ), (d:ℤ)⟩ true = I ++ '.' :: F ∧
      I ≠ [] ∧ (∀ c ∈ I, isDigitCh c = true) ∧ (∀ c ∈ F, isDigitCh c = true) ∧
      (I = ['0'] ∨ ∃ c t, I = c :: t ∧ c ≠ '0') ∧
      F.length = d ∧ charsToNat (I ++ F) = v := by
  have hsv : intToChars (v:ℤ) = natToChars v := by
    rw [intToChars, if_neg (by omega : ¬ ((v:ℤ) < 0)), Int.toNat_natCast]
  set s := natToChars v with hs
  set n := s.length with hn
  have hsnil : s ≠ [] := natToChars_ne_nil v
  have hn1 : 1 ≤ n := by
    rw [hn]
    cases hsl : s with
    | nil => exact absurd hsl hsnil
    | cons a t => simp
  have hsdig : ∀ c ∈ s, isDigitCh c = true := natToChars_all_digits v
  have hval : charsToNat s = v := charsToNat_natToChars v
  have hlen0 : (List.replicate d '0' ++ s).length - d = n := by
    simp [List.length_append, List.length_replicate]
  rcases le_or_lt n d with hnd | hdn
  · -- n ≤ d : integer part "0", fraction zero-padded
    refine ⟨['0'], List.replicate (d - n) '0' ++ s, ?_, by simp, ?_, ?_, Or.inl rfl, ?_, ?_⟩
    · apply toString_pos_of_shape (v:ℤ) d hd _ _ (by simp)
      · rw [hsv, hlen0]
        have htake : (List.replicate d '0' ++ s).take n = List.replicate n '0' := by
          rw [List.take_append_eq_append_take, List.take_replicate, List.length_replicate,
            inf_eq_left.mpr hnd, show n - d = 0 by omega, List.take_zero, List.append_nil]
        have hdrop : (List.replicate d '0' ++ s).drop n = List.replicate (d - n) '0' ++ s := by
          rw [List.drop_append_eq_append_drop, List.drop_replicate, List.length_replicate,
            show n - d = 0 by omega, List.drop_zero]
        rw [htake, hdrop, show n = (n - 1) + 1 by omega]
        exact formatNumeric_strip_dot _ _
      · simp [List.length_replicate]
        omega
    · intro c hc
      simp at hc
      subst hc
      decide
    · intro c hc
      rcases List.mem_append.mp hc with h1 | h2
      · rw [List.eq_of_mem_replicate h1]
        decide
      · exact hsdig c h2
    · simp [List.length_append, List.length_replicate]
      omega
    · show charsToNat ('0' :: (List.replicate (d - n) '0' ++ s)) = v
      rw [charsToNat_cons_zero, charsToNat_replicate_zero]
      exact hval
  · -- d < n : strip the leading padding zeros
    have hvne : v ≠ 0 := by
      intro h0
      rw [h0] at hs
      have : s = ['0'] := by rw [hs]; rfl
      rw [this] at hn
      simp at hn
      omega
    obtain ⟨c, t, hct, hc⟩ : ∃ c t, s = c :: t ∧ c ≠ '0' := by
      rcases natToChars_shape v with h1 | h2
      · rw [← hs] at h1
        rw [h1] at hn
        simp at hn
        omega
      · rw [← hs] at h2
        exact h2
    refine ⟨s.take (n - d), s.drop (n - d), ?_, ?_, ?_, ?_, ?_, ?_, ?_⟩
    · apply toString_pos_of_shape (v:ℤ) d hd _ _
        (fun hm => not_dot_of_all_digits hsdig (List.take_subset _ _ hm))
      · rw [hsv, hlen0]
        have htake : (List.replicate d '0' ++ s).take n = List.replicate d '0' ++ s.take (n - d) := by
          rw [List.take_append_eq_append_take, List.take_replicate, List.length_replicate,
            inf_eq_right.mpr (by omega : d ≤ n)]
        have hdrop : (List.replicate d '0' ++ s).drop n = s.drop (n - d) := by
          rw [List.drop_append_eq_append_drop, List.drop_replicate, List.length_replicate,
            show d - n = 0 by omega, List.replicate_zero, List.nil_append]
        rw [htake, hdrop, List.append_assoc]
        have htk : s.take (n - d) = c :: t.take (n - d - 1) := by
          rw [hct, show n - d = (n - d - 1) + 1 by omega, List.take_succ_cons]
          simp
        rw [htk, List.cons_append]
        rw [formatNumeric_strip _ (isDigitCh_ne_dot (hsdig c (by rw [hct]; exact List.mem_cons_self c t))) d]
        rw [formatNumeric_of_head_ne_zero _ hc]
      · rw [List.length_drop, ← hn]
        omega
    · intro hnil
      have : (s.take (n - d)).length = 0 := by rw [hnil]; rfl
      rw [List.length_take, ← hn] at this
      omega
    · exact fun ch hch => hsdig ch (List.take_subset _ _ hch)
    · exact fun ch hch => hsdig ch (List.drop_subset _ _ hch)
    · right
      refine ⟨c, t.take (n - d - 1), ?_, hc⟩
      rw [hct, show n - d = (n - d - 1) + 1 by omega, List.take_succ_cons]
      simp
    · rw [List.length_drop, ← hn]
      omega
    · rw [List.take_append_drop]
      exact hval

theorem formatNumeric_natToChars (v : ℕ) : formatNumeric (natToChars v) = natToChars v := by
  rcases natToChars_shape v with h | ⟨c, t, hct, hc⟩
  · rw [h]
    rfl
  · rw [hct]
    exact formatNumeric_of_head_ne_zero _ hc

theorem fromString_all_digits (s : List Char) (hne : s ≠ [])
    (hdig : ∀ c ∈ s, isDigitCh c = true)
    (hshape : s = ['0'] ∨ ∃ c t, s = c :: t ∧ c ≠ '0') :
    DemicalFormat.fromString s = some (DemicalFormat.new (charsToNat s) 0) := by
  have hm := matchesNumeric_digits hne hdig
  have hz := hasTwoLeadingZeros_of_shape_plain hshape
  have hfmt : formatNumeric s = s := by
    rcases hshape with h1 | ⟨c, t, hct, hc⟩
    · subst h1
      rfl
    · subst hct
      exact formatNumeric_of_head_ne_zero _ hc
  have hidx : indexOfChar '.' s = -1 := indexOfChar_not_mem (not_dot_of_all_digits hdig)
  have hfil := filter_dot_digits hdig
  rw [DemicalFormat.fromString, if_neg (not_not_intro hm), if_neg (by simp [hz])]
  simp only [hfmt, hidx, hfil]
  have hdm : (if (s.length : ℤ) ≤ (s.length : ℤ) - 1 - (-1) then (0:ℤ)
      else (s.length : ℤ) - 1 - (-1)) = 0 := by
    rw [if_pos (by omega)]
  rw [hdm]

/-- C8: for every valid `DemicalFormat` value (non-negative mantissa,
non-negative scale), parsing the fixed-scale formatted text recovers the
value exactly: `fromString (toString v true) = some v`, with both the
mantissa and the scale equal. -/
theorem parse_format_roundTrip (f : DemicalFormat)
    (hv : 0 ≤ f.value) (hd : 0 ≤ f.demical) :
    DemicalFormat.fromString (DemicalFormat.toString f true) = some f := by
  obtain ⟨value, demical⟩ := f
  simp only at hv hd
  lift value to ℕ using hv with v
  lift demical to ℕ using hd with d
  rcases Nat.eq_zero_or_pos d with h0 | hpos
  · subst h0
    have ht : DemicalFormat.toString ⟨(v:ℤ), ((0:ℕ):ℤ)⟩ true = natToChars v := by
      rw [DemicalFormat.toString]
      rw [show ((⟨(v:ℤ), ((0:ℕ):ℤ)⟩ : DemicalFormat)).demical = ((0:ℕ):ℤ) from rfl,
        show ((⟨(v:ℤ), ((0:ℕ):ℤ)⟩ : DemicalFormat)).value = (v:ℤ) from rfl]
      rw [if_pos (by norm_num)]
      rw [intToChars, if_neg (by omega : ¬ ((v:ℤ) < 0)), Int.toNat_natCast]
      exact formatNumeric_natToChars v
    rw [ht]
    rw [fromString_all_digits (natToChars v) (natToChars_ne_nil v)
      (natToChars_all_digits v) (natToChars_shape v)]
    rw [charsToNat_natToChars]
    rfl
  · obtain ⟨I, F, hts, hIne, hIdig, hFdig, hshape, hFlen, hcv⟩ := toString_pos_demical v d hpos
    rw [hts, fromString_canonical I F hIne hIdig hFdig hshape]
    rw [hFlen, hcv]
    rw [DemicalFormat.new, if_neg (by omega : ¬ ((d:ℕ):ℤ) < 0)]

/-- Witness for C8 at the value `12.34` (mantissa `1234`, scale `2`). -/
theorem parse_format_roundTrip_witness :
    0 ≤ (⟨1234, 2⟩ : DemicalFormat).value ∧ 0 ≤ (⟨1234, 2⟩ : DemicalFormat).demical ∧
    DemicalFormat.fromString (DemicalFormat.toString ⟨1234, 2⟩ true) = some ⟨1234, 2⟩ :=
  ⟨by decide, by decide, parse_format_roundTrip ⟨1234, 2⟩ (by decide) (by decide)⟩

/-- C10: the `DemicalFormat` constructor coerces a negative scale argument to
`0` and never fails, so every constructed value has a non-negative scale. -/
theorem demicalFormat_new_clamps_negative_scale (value demical : ℤ) :
    (DemicalFormat.new value demical).demical = (if demical < 0 then 0 else demical) ∧
    0 ≤ (DemicalFormat.new value demical).demical := by
  refine ⟨rfl, ?_⟩
  show 0 ≤ if demical < 0 then 0 else demical
  split <;> omega

end SwapSdk
